import Mathlib

/-!
# Verification of the undo/redo history engine (`bevy_playground`)

Shallow embedding of `src/lib.rs` (the `History` resource, the `HistoryItem`
dispatch record bound per action type, and the `PerformAction` / `Undo` /
`Redo` commands) together with proofs of the specified properties.

Entities are modelled as natural-number handles.  The `World` of the engine
is modelled by `Store S A`: an observable part `res : S` (resources and
pre-existing entities that actions mutate), the spawned history-entry
entities `entries : Nat → Option (Entry A)` with a fresh-id allocator
`nextId`, and the `History` resource.  Actions of one concrete type `A` are
given by an `ActionImpl S A`: the `apply` and `undo` functions (which mutate
both the action value and the observable store, as in the Rust trait
`Action`), and the `Placeholder` value.
-/

/-- The `History` resource of `lib.rs`: an ordered sequence of entry
handles (`items : VecDeque<Entity>`) plus the cursor `index`. -/
structure History where
  items : List Nat
  index : Nat
deriving Repr, DecidableEq

/-- `#[derive(Default)]` for `History`: empty sequence, cursor `0`. -/
def History.default : History :=
  { items := [], index := 0 }

/-- `History::new(past)`: build from a past sequence, cursor at the end. -/
def History.new (past : List Nat) : History :=
  { index := past.length, items := past }

/-- `History::back`: if `index > 0`, decrement and return the entry handle
now at `index`; else return `none`.  Returns the (optional) handle together
with the updated history, since the Rust method mutates `self`. -/
def History.back (h : History) : Option Nat × History :=
  if 0 < h.index then
    (some (h.items.getD (h.index - 1) 0), { h with index := h.index - 1 })
  else
    (none, h)

/-- `History::forward`: if `index < items.len()`, return the entry handle at
`index` and increment; else return `none`. -/
def History.forward (h : History) : Option Nat × History :=
  if h.index < h.items.length then
    (some (h.items.getD h.index 0), { h with index := h.index + 1 })
  else
    (none, h)

/-- `History::push(entity)`: drain `[index, len)` (returned, to be
despawned by the caller), append `entity`, increment `index`. -/
def History.push (h : History) (e : Nat) : List Nat × History :=
  (h.items.drop h.index,
   { items := h.items.take h.index ++ [e], index := h.index + 1 })

/-- `MapEntities for History`: rewrite every stored handle through the
mapper. -/
def History.mapEntities (f : Nat → Nat) (h : History) : History :=
  { h with items := h.items.map f }

/-- Modelled from the spec: the scene-based load path of `main.rs`
(`save_load_input` spawning a `DynamicSceneBundle`) is realised by bevy's
reflection-based deserializer, which is not part of this repository.  Per
§6 of the spec the serializer includes the `History` value (ordered handle
sequence + cursor) verbatim, so loading a persisted `(sequence, cursor)`
pair reconstructs exactly those two fields. -/
def History.load (items : List Nat) (index : Nat) : History :=
  { items := items, index := index }

/-- The cursor invariant: `index ≤ items.length` (past/future partition). -/
def History.WF (h : History) : Prop := h.index ≤ h.items.length

instance (h : History) : Decidable h.WF := by
  unfold History.WF; infer_instance

/-- Abstraction used by the spec's state machine: number of past entries. -/
def History.pastLen (h : History) : Nat := h.index

/-- Abstraction used by the spec's state machine: number of future
(redoable) entries. -/
def History.futureLen (h : History) : Nat := h.items.length - h.index

/-- A history-entry entity as spawned by `PerformAction`: the attached
action value of type `A` (the component `T`), and whether the
`HistoryItem` dispatch-record component is attached. -/
structure Entry (A : Type) where
  action : Option A
  item : Bool

/-- The part of the bevy `World` the engine touches: observable state
`res` (resources and pre-existing entities), the spawned entry entities
(by handle), the entity allocator bound, and the `History` resource. -/
@[ext]
structure Store (S A : Type) where
  res : S
  entries : Nat → Option (Entry A)
  nextId : Nat
  history : History

/-- The `Action` + `Placeholder` capabilities of one concrete action type:
`apply` and `undo` take the action value and the observable store and
return the mutated action value and mutated store (`&mut self`,
`&mut World` in Rust). -/
structure ActionImpl (S A : Type) where
  applyF : A → S → A × S
  undoF : A → S → A × S
  placeholder : A

/-- `world.get::<...>(entity)` for an entry entity. -/
def getEntry (w : Store S A) (e : Nat) : Option (Entry A) :=
  w.entries e

/-- Write an action value into an (existing) entry's component slot,
`*world.get_mut::<T>(entity).unwrap() = action`. -/
def setAction (w : Store S A) (e : Nat) (a : A) : Store S A :=
  { w with
    entries := fun id =>
      if id = e then (w.entries e).map (fun ent => { ent with action := some a })
      else w.entries id }

/-- The `undo` function pointer of `FromType<T> for HistoryItem`: detach
the action value at `entity` by `mem::replace`-ing it with the
placeholder, invoke `undo` on the detached value, write the mutated value
back.  A missing entity or missing action component is an `unwrap`
panic, modelled as `none`. -/
def HistoryItem.undo (impl : ActionImpl S A) (w : Store S A) (e : Nat) :
    Option (Store S A) :=
  match getEntry w e with
  | none => none
  | some ent =>
    match ent.action with
    | none => none
    | some a =>
      let w1 := setAction w e impl.placeholder
      let r := impl.undoF a w1.res
      some (setAction { w1 with res := r.2 } e r.1)

/-- The `redo` function pointer of `FromType<T> for HistoryItem`:
identical pattern invoking `apply`. -/
def HistoryItem.redo (impl : ActionImpl S A) (w : Store S A) (e : Nat) :
    Option (Store S A) :=
  match getEntry w e with
  | none => none
  | some ent =>
    match ent.action with
    | none => none
    | some a =>
      let w1 := setAction w e impl.placeholder
      let r := impl.applyF a w1.res
      some (setAction { w1 with res := r.2 } e r.1)

/-- Built from the spec's words (§4.3), for comparison with the source
dispatch functions: detach the action value at the handle (replacing it in
storage with a placeholder), invoke the step on the detached value, write
the mutated value back into the handle's slot. -/
def specDispatch (step : A → S → A × S) (ph : A) (w : Store S A) (e : Nat) :
    Option (Store S A) :=
  (getEntry w e).bind fun ent =>
    ent.action.map fun a =>
      let detached := setAction w e ph
      let r := step a detached.res
      setAction { detached with res := r.2 } e r.1

/-- `Command for PerformAction<T>`: apply the action to the world, spawn an
entry holding the mutated action value plus a freshly bound dispatch
record, push its handle onto the history, despawn the drained future. -/
def PerformAction.run (impl : ActionImpl S A) (action : A) (w : Store S A) :
    Store S A :=
  let r := impl.applyF action w.res
  let e := w.nextId
  let withNew : Nat → Option (Entry A) := fun id =>
    if id = e then some { action := some r.1, item := true } else w.entries id
  let pr := w.history.push e
  { res := r.2
    entries := fun id => if id ∈ pr.1 then none else withNew id
    nextId := w.nextId + 1
    history := pr.2 }

/-- `Command for Undo`: move the history cursor back; on `some entity`,
fetch the `HistoryItem` (an `unwrap`: a missing entity or missing dispatch
record is a panic, modelled as `none`) and invoke its `undo`; on `none`,
report end of history and change nothing. -/
def Undo.run (impl : ActionImpl S A) (w : Store S A) : Option (Store S A) :=
  match w.history.back with
  | (none, h1) => some { w with history := h1 }
  | (some e, h1) =>
    let w1 := { w with history := h1 }
    match getEntry w1 e with
    | none => none
    | some ent => if ent.item then HistoryItem.undo impl w1 e else none

/-- `Command for Redo`: symmetric, using `forward` and the dispatch
record's `redo`. -/
def Redo.run (impl : ActionImpl S A) (w : Store S A) : Option (Store S A) :=
  match w.history.forward with
  | (none, h1) => some { w with history := h1 }
  | (some e, h1) =>
    let w1 := { w with history := h1 }
    match getEntry w1 e with
    | none => none
    | some ent => if ent.item then HistoryItem.redo impl w1 e else none

/-- A sequence of `PerformAction` commands, drained in order. -/
def performAll (impl : ActionImpl S A) (acts : List A) (w : Store S A) :
    Store S A :=
  acts.foldl (fun v a => PerformAction.run impl a v) w

/-- `n` consecutive `Undo` commands (propagating a panic as `none`). -/
def undoAll (impl : ActionImpl S A) : Nat → Store S A → Option (Store S A)
  | 0, w => some w
  | n + 1, w => (undoAll impl n w).bind (Undo.run impl)

/-- Allocator freshness: every id at or above `nextId` is unoccupied, and
every handle recorded in the history is below `nextId`. -/
def Fresh (w : Store S A) : Prop :=
  (∀ id, w.nextId ≤ id → w.entries id = none) ∧
  (∀ e ∈ w.history.items, e < w.nextId)

/-- A concrete action instance mirroring `SetLevel` of `main.rs`: `apply`
swaps the carried value with the `Level` resource (`mem::swap`), and
`undo` is `apply`; the placeholder is the derived default `0`. -/
def setLevelImpl : ActionImpl Nat Nat :=
  { applyF := fun a s => (s, a)
    undoF := fun a s => (s, a)
    placeholder := 0 }

/-- A concrete initial store: level `0`, no entries, empty history. -/
def store0 : Store Nat Nat :=
  { res := 0, entries := fun _ => none, nextId := 0, history := History.default }

/-- A concrete broken store: the history records handle `0` as past, but
no entry entity exists for it (a violated construction invariant). -/
def storeBad : Store Nat Nat :=
  { res := 0, entries := fun _ => none, nextId := 1,
    history := { items := [0], index := 1 } }

/-! ## Helper lemmas -/

theorem getD_append_left (l r : List Nat) (n : Nat) (h : n < l.length) :
    (l ++ r).getD n 0 = l.getD n 0 := by
  simp [List.getD, List.getElem?_append, h]

theorem getD_append_len (l : List Nat) (e : Nat) :
    (l ++ [e]).getD l.length 0 = e := by
  simp [List.getD]

theorem getD_take (l : List Nat) (i n : Nat) (h : n < i) :
    (l.take i).getD n 0 = l.getD n 0 := by
  simp [List.getD, List.getElem?_take, h]

theorem getD_mem (l : List Nat) (n : Nat) (h : n < l.length) :
    l.getD n 0 ∈ l := by
  rw [List.getD_eq_getElem _ _ h]
  exact List.getElem_mem h

theorem length_take_of_le (l : List Nat) (i : Nat) (h : i ≤ l.length) :
    (l.take i).length = i := by
  simp [Nat.min_eq_left h]

/-! ## Claim theorems: History operations -/

/-- C3: for every (invariant-respecting) history and handle, `push(e)`
removes and returns exactly the handles previously at positions
`[cursor, length)` in order, appends `e` at the end, leaves the cursor
equal to the new length, and immediately afterwards `forward()` returns
none. -/
theorem History.push_spec (h : History) (e : Nat) (hwf : h.WF) :
    (h.push e).1 = h.items.drop h.index ∧
    (h.push e).2.items = h.items.take h.index ++ [e] ∧
    (h.push e).2.index = (h.push e).2.items.length ∧
    ((h.push e).2.forward).1 = none := by
  have hwf' : h.index ≤ h.items.length := hwf
  refine ⟨rfl, rfl, ?_, ?_⟩
  · simp [History.push, length_take_of_le _ _ hwf']
  · simp [History.push, History.forward, length_take_of_le _ _ hwf']

theorem History.push_spec_witness :
    ((⟨[7, 8], 1⟩ : History).push 9).1 = ([7, 8] : List Nat).drop 1 ∧
    ((⟨[7, 8], 1⟩ : History).push 9).2.items = ([7, 8] : List Nat).take 1 ++ [9] ∧
    ((⟨[7, 8], 1⟩ : History).push 9).2.index =
      ((⟨[7, 8], 1⟩ : History).push 9).2.items.length ∧
    (((⟨[7, 8], 1⟩ : History).push 9).2.forward).1 = none :=
  History.push_spec ⟨[7, 8], 1⟩ 9 (by decide)

/-- C9: the cursor invariant `0 ≤ index ≤ items.length` holds for a newly
constructed history (`new`, and the derived `Default`) and is preserved by
`back`, `forward`, and `push`. -/
theorem History.wf_preserved (h : History) (hwf : h.WF) (l : List Nat) (e : Nat) :
    (History.new l).WF ∧ History.default.WF ∧
    h.back.2.WF ∧ h.forward.2.WF ∧ (h.push e).2.WF := by
  have hwf' : h.index ≤ h.items.length := hwf
  refine ⟨Nat.le_refl _, Nat.zero_le _, ?_, ?_, ?_⟩
  · unfold History.WF History.back
    split <;> simp <;> omega
  · unfold History.WF History.forward
    split <;> simp <;> omega
  · unfold History.WF History.push
    simp [length_take_of_le _ _ hwf']

theorem History.wf_preserved_witness :
    (History.new [4, 5]).WF ∧ History.default.WF ∧
    (⟨[3], 1⟩ : History).back.2.WF ∧ (⟨[3], 1⟩ : History).forward.2.WF ∧
    ((⟨[3], 1⟩ : History).push 6).2.WF :=
  History.wf_preserved ⟨[3], 1⟩ (by decide) [4, 5] 6

/-- C6: `back()` returns none exactly when the cursor is `0`, and
`forward()` returns none exactly when the cursor equals the length; in the
none case the history is left entirely unchanged and the corresponding
Undo/Redo command is a no-op on the whole store. -/
theorem boundary_noop (impl : ActionImpl S A) (h : History) (w : Store S A)
    (hwf : h.WF) (hw : w.history.WF) :
    (h.back.1 = none ↔ h.index = 0) ∧
    (h.back.1 = none → h.back.2 = h) ∧
    (h.forward.1 = none ↔ h.index = h.items.length) ∧
    (h.forward.1 = none → h.forward.2 = h) ∧
    (w.history.index = 0 → Undo.run impl w = some w) ∧
    (w.history.index = w.history.items.length → Redo.run impl w = some w) := by
  have hwf' : h.index ≤ h.items.length := hwf
  have hw' : w.history.index ≤ w.history.items.length := hw
  refine ⟨?_, ?_, ?_, ?_, ?_, ?_⟩
  · unfold History.back
    split <;> simp <;> omega
  · unfold History.back
    split <;> simp
  · unfold History.forward
    split <;> simp <;> omega
  · unfold History.forward
    split <;> simp
  · intro h0
    unfold Undo.run
    rw [show w.history.back = (none, w.history) from by
      unfold History.back
      rw [if_neg]
      omega]
  · intro hlen
    unfold Redo.run
    rw [show w.history.forward = (none, w.history) from by
      unfold History.forward
      rw [if_neg]
      omega]

theorem boundary_noop_witness :
    (History.default.back.1 = none ↔ History.default.index = 0) ∧
    (History.default.back.1 = none → History.default.back.2 = History.default) ∧
    (History.default.forward.1 = none ↔
      History.default.index = History.default.items.length) ∧
    (History.default.forward.1 = none →
      History.default.forward.2 = History.default) ∧
    (store0.history.index = 0 → Undo.run setLevelImpl store0 = some store0) ∧
    (store0.history.index = store0.history.items.length →
      Redo.run setLevelImpl store0 = some store0) :=
  boundary_noop setLevelImpl History.default store0 (by decide) (by decide)

/-- C5 (counterexample): in the state with items `[0, 1]` and cursor `1`
(`pastLen = 1`, `futureLen = 1`), `push` yields `pastLen = 2`, not
`pastLen + futureLen + 1 = 3`: the drained future is discarded and does
not count towards the new past. -/
theorem push_transition_refuted :
    ¬ (((⟨[0, 1], 1⟩ : History).push 2).2.pastLen =
        (⟨[0, 1], 1⟩ : History).pastLen + (⟨[0, 1], 1⟩ : History).futureLen + 1) := by
  decide

/-- C5 (amended): viewing History as a state machine over
`(pastLen, futureLen)`: the initial state is `(0, 0)`; `push` transitions
to `(pastLen + 1, 0)` (the future is discarded, not absorbed); `back`,
guarded by `pastLen > 0`, transitions to `(pastLen - 1, futureLen + 1)`;
`forward`, guarded by `futureLen > 0`, transitions to
`(pastLen + 1, futureLen - 1)`; `push` is enabled in every state, so no
state is terminal. -/
theorem history_state_machine (h : History) (hwf : h.WF) (e : Nat) :
    History.default.pastLen = 0 ∧ History.default.futureLen = 0 ∧
    (h.push e).2.pastLen = h.pastLen + 1 ∧
    (h.push e).2.futureLen = 0 ∧
    (0 < h.pastLen →
      h.back.2.pastLen = h.pastLen - 1 ∧ h.back.2.futureLen = h.futureLen + 1) ∧
    (0 < h.futureLen →
      h.forward.2.pastLen = h.pastLen + 1 ∧
      h.forward.2.futureLen = h.futureLen - 1) := by
  have hwf' : h.index ≤ h.items.length := hwf
  refine ⟨rfl, rfl, rfl, ?_, ?_, ?_⟩
  · unfold History.push History.futureLen
    simp [length_take_of_le _ _ hwf']
  · intro hp
    have hp' : 0 < h.index := hp
    unfold History.back History.pastLen History.futureLen
    rw [if_pos hp']
    exact ⟨by simp, by simp; omega⟩
  · intro hf
    have hf' : h.index < h.items.length := by
      unfold History.futureLen at hf
      omega
    unfold History.forward History.pastLen History.futureLen
    rw [if_pos hf']
    exact ⟨by simp, by simp; omega⟩

theorem history_state_machine_witness :
    History.default.pastLen = 0 ∧ History.default.futureLen = 0 ∧
    ((⟨[4, 5], 1⟩ : History).push 6).2.pastLen =
      (⟨[4, 5], 1⟩ : History).pastLen + 1 ∧
    ((⟨[4, 5], 1⟩ : History).push 6).2.futureLen = 0 ∧
    (0 < (⟨[4, 5], 1⟩ : History).pastLen →
      (⟨[4, 5], 1⟩ : History).back.2.pastLen =
        (⟨[4, 5], 1⟩ : History).pastLen - 1 ∧
      (⟨[4, 5], 1⟩ : History).back.2.futureLen =
        (⟨[4, 5], 1⟩ : History).futureLen + 1) ∧
    (0 < (⟨[4, 5], 1⟩ : History).futureLen →
      (⟨[4, 5], 1⟩ : History).forward.2.pastLen =
        (⟨[4, 5], 1⟩ : History).pastLen + 1 ∧
      (⟨[4, 5], 1⟩ : History).forward.2.futureLen =
        (⟨[4, 5], 1⟩ : History).futureLen - 1) :=
  history_state_machine ⟨[4, 5], 1⟩ (by decide) 6

/-- C7 (counterexample): loading the persisted pair (items `[0, 1, 2]`,
cursor `2`) yields a live cursor of `2`, not the full loaded length `3`. -/
theorem load_cursor_refuted :
    ¬ ((History.load [0, 1, 2] 2).index =
        (History.load [0, 1, 2] 2).items.length) := by
  decide

/-- C7 (amended): `History::new`, which reconstructs from a persisted past
sequence alone, initializes the cursor to the full loaded length; the
scene load of a persisted (sequence, cursor) pair, by contrast, restores
both fields verbatim, so the live cursor equals the persisted cursor, not
the full loaded length. -/
theorem load_cursor (l : List Nat) (i : Nat) :
    (History.new l).index = (History.new l).items.length ∧
    (History.new l).items = l ∧
    (History.load l i).items = l ∧
    (History.load l i).index = i :=
  ⟨rfl, rfl, rfl, rfl⟩

/-- C8: loading a persisted History with items `[a, b, c]` and saved index
`2` yields a live History with cursor `2`, and the first `forward()` call
after the load returns the third handle `c` (moving the cursor to `3`). -/
theorem load_forward_returns_third (a b c : Nat) :
    (History.load [a, b, c] 2).index = 2 ∧
    (History.load [a, b, c] 2).forward.1 = some c ∧
    (History.load [a, b, c] 2).forward.2.index = 3 := by
  refine ⟨rfl, ?_, ?_⟩ <;> rfl

/-- C4: both dispatch function pointers of the `HistoryItem` record follow
exactly the spec's pattern — first detach the stored action value by
replacing it in storage with the placeholder, then invoke the action's
step on the detached value, then write the (possibly self-mutated) value
back into the same slot — with `undo` invoking the action's `undo` and
`redo` invoking its `apply`. -/
theorem dispatch_detach_writeback (impl : ActionImpl S A) (w : Store S A) (e : Nat) :
    HistoryItem.undo impl w e = specDispatch impl.undoF impl.placeholder w e ∧
    HistoryItem.redo impl w e = specDispatch impl.applyF impl.placeholder w e := by
  constructor
  · unfold HistoryItem.undo specDispatch
    cases hE : getEntry w e with
    | none => rfl
    | some ent => cases hA : ent.action <;> simp [hA]
  · unfold HistoryItem.redo specDispatch
    cases hE : getEntry w e with
    | none => rfl
    | some ent => cases hA : ent.action <;> simp [hA]

/-! ## Characterization lemmas for the commands -/

theorem History.back_eq_some (h : History) (e : Nat) (h1 : History)
    (hb : h.back = (some e, h1)) :
    0 < h.index ∧ e = h.items.getD (h.index - 1) 0 ∧
      h1 = { h with index := h.index - 1 } := by
  unfold History.back at hb
  by_cases hp : 0 < h.index
  · rw [if_pos hp] at hb
    injection hb with hfst hsnd
    injection hfst with hval
    exact ⟨hp, hval.symm, hsnd.symm⟩
  · rw [if_neg hp] at hb
    injection hb with hfst hsnd
    simp at hfst

theorem History.forward_eq_some (h : History) (e : Nat) (h1 : History)
    (hb : h.forward = (some e, h1)) :
    h.index < h.items.length ∧ e = h.items.getD h.index 0 ∧
      h1 = { h with index := h.index + 1 } := by
  unfold History.forward at hb
  by_cases hp : h.index < h.items.length
  · rw [if_pos hp] at hb
    injection hb with hfst hsnd
    injection hfst with hval
    exact ⟨hp, hval.symm, hsnd.symm⟩
  · rw [if_neg hp] at hb
    injection hb with hfst hsnd
    simp at hfst

theorem HistoryItem.undo_eq (impl : ActionImpl S A) (w : Store S A) (e : Nat)
    (ent : Entry A) (a : A)
    (hent : getEntry w e = some ent) (ha : ent.action = some a) :
    HistoryItem.undo impl w e = some
      { res := (impl.undoF a w.res).2
        entries := fun id =>
          if id = e then
            some { action := some (impl.undoF a w.res).1, item := ent.item }
          else w.entries id
        nextId := w.nextId
        history := w.history } := by
  have hent1 : w.entries e = some ent := hent
  unfold HistoryItem.undo
  rw [hent]
  simp only [ha]
  refine congrArg some ?_
  refine Store.ext ?_ ?_ ?_ ?_ <;> try rfl
  funext id
  by_cases hid : id = e <;> simp [setAction, hid, hent1]

theorem HistoryItem.redo_eq (impl : ActionImpl S A) (w : Store S A) (e : Nat)
    (ent : Entry A) (a : A)
    (hent : getEntry w e = some ent) (ha : ent.action = some a) :
    HistoryItem.redo impl w e = some
      { res := (impl.applyF a w.res).2
        entries := fun id =>
          if id = e then
            some { action := some (impl.applyF a w.res).1, item := ent.item }
          else w.entries id
        nextId := w.nextId
        history := w.history } := by
  have hent1 : w.entries e = some ent := hent
  unfold HistoryItem.redo
  rw [hent]
  simp only [ha]
  refine congrArg some ?_
  refine Store.ext ?_ ?_ ?_ ?_ <;> try rfl
  funext id
  by_cases hid : id = e <;> simp [setAction, hid, hent1]

theorem Undo.run_pops_back (impl : ActionImpl S A) (w : Store S A) (k e : Nat)
    (ent : Entry A) (a : A)
    (hidx : w.history.index = k + 1)
    (he : w.history.items.getD k 0 = e)
    (hent : getEntry w e = some ent)
    (hitem : ent.item = true)
    (ha : ent.action = some a) :
    Undo.run impl w = some
      { res := (impl.undoF a w.res).2
        entries := fun id =>
          if id = e then
            some { action := some (impl.undoF a w.res).1, item := ent.item }
          else w.entries id
        nextId := w.nextId
        history := { items := w.history.items, index := k } } := by
  have hback : w.history.back =
      (some e, { items := w.history.items, index := k }) := by
    unfold History.back
    rw [if_pos (by omega)]
    rw [hidx, Nat.add_sub_cancel, he]
  have hent1 : getEntry
      { w with history := ({ items := w.history.items, index := k } : History) } e =
      some ent := hent
  unfold Undo.run
  rw [hback]
  simp only [hent1, hitem, if_true]
  have hd := HistoryItem.undo_eq impl
    { w with history := ({ items := w.history.items, index := k } : History) }
    e ent a hent1 ha
  rw [hitem] at hd
  exact hd

theorem Redo.run_pops_forward (impl : ActionImpl S A) (w : Store S A) (e : Nat)
    (ent : Entry A) (a : A)
    (hidx : w.history.index < w.history.items.length)
    (he : w.history.items.getD w.history.index 0 = e)
    (hent : getEntry w e = some ent)
    (hitem : ent.item = true)
    (ha : ent.action = some a) :
    Redo.run impl w = some
      { res := (impl.applyF a w.res).2
        entries := fun id =>
          if id = e then
            some { action := some (impl.applyF a w.res).1, item := ent.item }
          else w.entries id
        nextId := w.nextId
        history := { items := w.history.items, index := w.history.index + 1 } } := by
  have hforward : w.history.forward =
      (some e, { items := w.history.items, index := w.history.index + 1 }) := by
    unfold History.forward
    rw [if_pos hidx, he]
  have hent1 : getEntry
      { w with history :=
        ({ items := w.history.items, index := w.history.index + 1 } : History) } e =
      some ent := hent
  unfold Redo.run
  rw [hforward]
  simp only [hent1, hitem, if_true]
  have hd := HistoryItem.redo_eq impl
    { w with history :=
      ({ items := w.history.items, index := w.history.index + 1 } : History) }
    e ent a hent1 ha
  rw [hitem] at hd
  exact hd

theorem PerformAction.run_unfold (impl : ActionImpl S A) (a : A) (w : Store S A) :
    PerformAction.run impl a w =
      { res := (impl.applyF a w.res).2
        entries := fun id =>
          if id ∈ w.history.items.drop w.history.index then none
          else if id = w.nextId then
            some { action := some (impl.applyF a w.res).1, item := true }
          else w.entries id
        nextId := w.nextId + 1
        history := { items := w.history.items.take w.history.index ++ [w.nextId],
                     index := w.history.index + 1 } } :=
  rfl

theorem perform_fresh (impl : ActionImpl S A) (a : A) (w : Store S A)
    (hf : Fresh w) : Fresh (PerformAction.run impl a w) := by
  constructor
  · intro id hid
    have hid1 : w.nextId + 1 ≤ id := hid
    show (if id ∈ w.history.items.drop w.history.index then none
          else if id = w.nextId then
            some { action := some (impl.applyF a w.res).1, item := true }
          else w.entries id) = none
    by_cases hmem : id ∈ w.history.items.drop w.history.index
    · rw [if_pos hmem]
    · rw [if_neg hmem, if_neg (by omega), hf.1 id (by omega)]
  · intro x hx
    have hx1 : x ∈ w.history.items.take w.history.index ++ [w.nextId] := hx
    show x < w.nextId + 1
    rcases List.mem_append.mp hx1 with hx2 | hx2
    · exact Nat.lt_succ_of_lt (hf.2 x (List.mem_of_mem_take hx2))
    · rcases List.mem_singleton.mp hx2 with rfl
      exact Nat.lt_succ_self _

theorem perform_index (impl : ActionImpl S A) (a : A) (w : Store S A) :
    (PerformAction.run impl a w).history.index = w.history.index + 1 :=
  rfl

theorem perform_items (impl : ActionImpl S A) (a : A) (w : Store S A) :
    (PerformAction.run impl a w).history.items =
      w.history.items.take w.history.index ++ [w.nextId] :=
  rfl

theorem perform_len (impl : ActionImpl S A) (a : A) (w : Store S A)
    (hwf : w.history.WF) :
    (PerformAction.run impl a w).history.items.length = w.history.index + 1 := by
  rw [perform_items]
  simp [length_take_of_le _ _ hwf]

theorem perform_wf (impl : ActionImpl S A) (a : A) (w : Store S A)
    (hwf : w.history.WF) : (PerformAction.run impl a w).history.WF := by
  show (PerformAction.run impl a w).history.index ≤
    (PerformAction.run impl a w).history.items.length
  rw [perform_len impl a w hwf, perform_index]

theorem perform_no_future (impl : ActionImpl S A) (a : A) (w : Store S A)
    (hwf : w.history.WF) :
    (PerformAction.run impl a w).history.items.drop
      (PerformAction.run impl a w).history.index = [] := by
  apply List.drop_eq_nil_of_le
  rw [perform_len impl a w hwf, perform_index]

theorem perform_getEntry_new (impl : ActionImpl S A) (a : A) (w : Store S A)
    (hf : Fresh w) :
    getEntry (PerformAction.run impl a w) w.nextId =
      some { action := some (impl.applyF a w.res).1, item := true } := by
  have hnot : w.nextId ∉ w.history.items.drop w.history.index := fun hmem =>
    Nat.lt_irrefl _ (hf.2 _ (List.mem_of_mem_drop hmem))
  show (if w.nextId ∈ w.history.items.drop w.history.index then none
        else if w.nextId = w.nextId then
          some { action := some (impl.applyF a w.res).1, item := true }
        else w.entries w.nextId) = _
  rw [if_neg hnot, if_pos rfl]

theorem perform_getEntry_old (impl : ActionImpl S A) (a : A) (w : Store S A)
    (id : Nat) (hne : id ≠ w.nextId)
    (hmem : id ∉ w.history.items.drop w.history.index) :
    getEntry (PerformAction.run impl a w) id = getEntry w id := by
  show (if id ∈ w.history.items.drop w.history.index then none
        else if id = w.nextId then
          some { action := some (impl.applyF a w.res).1, item := true }
        else w.entries id) = w.entries id
  rw [if_neg hmem, if_neg hne]

theorem perform_getD_new (impl : ActionImpl S A) (a : A) (w : Store S A)
    (hwf : w.history.WF) :
    (PerformAction.run impl a w).history.items.getD w.history.index 0 =
      w.nextId := by
  rw [perform_items]
  have hl : (w.history.items.take w.history.index).length = w.history.index :=
    length_take_of_le _ _ hwf
  calc (w.history.items.take w.history.index ++ [w.nextId]).getD w.history.index 0
      = (w.history.items.take w.history.index ++ [w.nextId]).getD
          (w.history.items.take w.history.index).length 0 := by rw [hl]
    _ = w.nextId := getD_append_len _ _

theorem perform_getD_old (impl : ActionImpl S A) (a : A) (w : Store S A)
    (j : Nat) (hj : j < w.history.index) (hwf : w.history.WF) :
    (PerformAction.run impl a w).history.items.getD j 0 =
      w.history.items.getD j 0 := by
  rw [perform_items]
  rw [getD_append_left _ _ _ (by rw [length_take_of_le _ _ hwf]; omega)]
  exact getD_take _ _ _ hj

theorem Undo.run_back_some (impl : ActionImpl S A) (w : Store S A) (e : Nat)
    (h1 : History) (hb : w.history.back = (some e, h1)) :
    Undo.run impl w =
      (match getEntry { w with history := h1 } e with
       | none => none
       | some ent =>
         if ent.item = true then HistoryItem.undo impl { w with history := h1 } e
         else none) := by
  unfold Undo.run
  rw [hb]

theorem Redo.run_forward_some (impl : ActionImpl S A) (w : Store S A) (e : Nat)
    (h1 : History) (hb : w.history.forward = (some e, h1)) :
    Redo.run impl w =
      (match getEntry { w with history := h1 } e with
       | none => none
       | some ent =>
         if ent.item = true then HistoryItem.redo impl { w with history := h1 } e
         else none) := by
  unfold Redo.run
  rw [hb]

/-! ## Claim theorems: commands -/

/-- C10: invoking a dispatch record (or the Undo/Redo command) against a
handle whose entry lacks the attached action value or the `HistoryItem`
dispatch record is fatal and not recoverable — the command aborts
(modelled as `none`) rather than continuing; and under correct
construction (every handle in the history refers to a live entry carrying
both its action value and its dispatch record) this failure branch is
unreachable: Undo and Redo always produce a successor store. -/
theorem invariant_violation_fatal (impl : ActionImpl S A) (w : Store S A)
    (hwf : w.history.WF) :
    (∀ e, getEntry w e = none →
      HistoryItem.undo impl w e = none ∧ HistoryItem.redo impl w e = none) ∧
    (∀ e ent, getEntry w e = some ent → ent.action = none →
      HistoryItem.undo impl w e = none ∧ HistoryItem.redo impl w e = none) ∧
    (∀ e h1, w.history.back = (some e, h1) →
      (getEntry w e = none ∨
        ∃ ent, getEntry w e = some ent ∧ (ent.item = false ∨ ent.action = none)) →
      Undo.run impl w = none) ∧
    (∀ e h1, w.history.forward = (some e, h1) →
      (getEntry w e = none ∨
        ∃ ent, getEntry w e = some ent ∧ (ent.item = false ∨ ent.action = none)) →
      Redo.run impl w = none) ∧
    ((∀ e ∈ w.history.items,
        ∃ ent a, getEntry w e = some ent ∧ ent.item = true ∧ ent.action = some a) →
      (Undo.run impl w).isSome ∧ (Redo.run impl w).isSome) := by
  refine ⟨?_, ?_, ?_, ?_, ?_⟩
  · intro e he
    constructor
    · unfold HistoryItem.undo
      rw [he]
    · unfold HistoryItem.redo
      rw [he]
  · intro e ent hent ha
    constructor
    · unfold HistoryItem.undo
      rw [hent]
      simp only [ha]
    · unfold HistoryItem.redo
      rw [hent]
      simp only [ha]
  · intro e h1 hb hbad
    rw [Undo.run_back_some impl w e h1 hb]
    rcases hbad with hnone | ⟨ent, hent, hbad2⟩
    · have hn : getEntry { w with history := h1 } e = none := hnone
      rw [hn]
    · have hs : getEntry { w with history := h1 } e = some ent := hent
      rw [hs]
      rcases hbad2 with hitem | ha
      · simp [hitem]
      · by_cases hi : ent.item = true
        · simp only [hi, if_true]
          unfold HistoryItem.undo
          rw [hs]
          simp only [ha]
        · simp [hi]
  · intro e h1 hb hbad
    rw [Redo.run_forward_some impl w e h1 hb]
    rcases hbad with hnone | ⟨ent, hent, hbad2⟩
    · have hn : getEntry { w with history := h1 } e = none := hnone
      rw [hn]
    · have hs : getEntry { w with history := h1 } e = some ent := hent
      rw [hs]
      rcases hbad2 with hitem | ha
      · simp [hitem]
      · by_cases hi : ent.item = true
        · simp only [hi, if_true]
          unfold HistoryItem.redo
          rw [hs]
          simp only [ha]
        · simp [hi]
  · intro hgood
    constructor
    · rcases hb : w.history.back with ⟨op, h1⟩
      cases op with
      | none =>
        unfold Undo.run
        rw [hb]
        rfl
      | some e =>
        obtain ⟨hp, hval, rfl⟩ := History.back_eq_some w.history e h1 hb
        have hmem : e ∈ w.history.items := by
          rw [hval]
          exact getD_mem _ _ (by have : w.history.index ≤ w.history.items.length := hwf; omega)
        obtain ⟨ent, aa, hent, hitem, ha⟩ := hgood e hmem
        rw [Undo.run_pops_back impl w (w.history.index - 1) e ent aa (by omega) hval.symm
          hent hitem ha]
        rfl
    · rcases hb : w.history.forward with ⟨op, h1⟩
      cases op with
      | none =>
        unfold Redo.run
        rw [hb]
        rfl
      | some e =>
        obtain ⟨hp, hval, rfl⟩ := History.forward_eq_some w.history e h1 hb
        have hmem : e ∈ w.history.items := by
          rw [hval]
          exact getD_mem _ _ hp
        obtain ⟨ent, aa, hent, hitem, ha⟩ := hgood e hmem
        rw [Redo.run_pops_forward impl w e ent aa hp hval.symm hent hitem ha]
        rfl

theorem invariant_violation_fatal_witness :
    Undo.run setLevelImpl storeBad = none :=
  (invariant_violation_fatal setLevelImpl storeBad (by decide)).2.2.1 0
    ⟨[0], 0⟩ (by decide) (Or.inl rfl)

theorem perform_undo_state (impl : ActionImpl S A)
    (hpair : ∀ x s, impl.undoF (impl.applyF x s).1 (impl.applyF x s).2 = (x, s))
    (a : A) (w : Store S A) (hf : Fresh w) (hwf : w.history.WF) :
    ∃ w2, Undo.run impl (PerformAction.run impl a w) = some w2 ∧
      w2.history.index < w2.history.items.length ∧
      w2.history.items.getD w2.history.index 0 = w.nextId ∧
      getEntry w2 w.nextId = some { action := some a, item := true } := by
  have hU1 := Undo.run_pops_back impl (PerformAction.run impl a w)
    w.history.index w.nextId
    { action := some (impl.applyF a w.res).1, item := true }
    (impl.applyF a w.res).1 (perform_index impl a w)
    (perform_getD_new impl a w hwf) (perform_getEntry_new impl a w hf) rfl rfl
  rw [show (PerformAction.run impl a w).res = (impl.applyF a w.res).2 from rfl,
    hpair a w.res] at hU1
  dsimp only at hU1
  refine ⟨_, hU1, ?_, ?_, ?_⟩
  · dsimp only
    rw [perform_len impl a w hwf]
    omega
  · dsimp only
    exact perform_getD_new impl a w hwf
  · unfold getEntry
    dsimp only
    rw [if_pos rfl]

theorem redo_undo_cancel (impl : ActionImpl S A)
    (hpair : ∀ x s, impl.undoF (impl.applyF x s).1 (impl.applyF x s).2 = (x, s))
    (v : Store S A) (e : Nat) (a : A)
    (hlen : v.history.index < v.history.items.length)
    (he : v.history.items.getD v.history.index 0 = e)
    (hent : getEntry v e = some { action := some a, item := true }) :
    ∃ w3, Redo.run impl v = some w3 ∧ Undo.run impl w3 = some v := by
  have hR := Redo.run_pops_forward impl v e { action := some a, item := true } a
    hlen he hent rfl rfl
  dsimp only at hR
  refine ⟨_, hR, ?_⟩
  have hU := Undo.run_pops_back impl
    { res := (impl.applyF a v.res).2
      entries := fun id =>
        if id = e then some { action := some (impl.applyF a v.res).1, item := true }
        else v.entries id
      nextId := v.nextId
      history := { items := v.history.items, index := v.history.index + 1 } }
    v.history.index e
    { action := some (impl.applyF a v.res).1, item := true }
    (impl.applyF a v.res).1 rfl he
    (by unfold getEntry; dsimp only; rw [if_pos rfl]) rfl rfl
  dsimp only at hU
  rw [hpair a v.res] at hU
  dsimp only at hU
  rw [hU]
  refine congrArg some ?_
  refine Store.ext rfl ?_ rfl ?_
  · funext id
    by_cases hid : id = e
    · subst hid
      dsimp only
      rw [if_pos rfl, ← hent]
      rfl
    · dsimp only
      rw [if_neg hid, if_neg hid]
  · rfl

/-- C2: for a single performed action, Undo then Redo then Undo reproduces
exactly the store state — including the stored action value at the entry —
that held after the first Undo.  The hypothesis `hpair` states that `undo`,
applied to the post-`apply` action value and store, restores both the
original action value and the original store; state-carrying swap-based
actions such as `SetLevel` satisfy it, and the oscillation works for them
precisely because the dispatch record writes the mutated action value back
into the entry after every undo/redo invocation. -/
theorem undo_redo_undo_oscillation (impl : ActionImpl S A)
    (hpair : ∀ x s, impl.undoF (impl.applyF x s).1 (impl.applyF x s).2 = (x, s))
    (a : A) (w : Store S A) (hf : Fresh w) (hwf : w.history.WF) :
    ∃ w2 w3,
      Undo.run impl (PerformAction.run impl a w) = some w2 ∧
      Redo.run impl w2 = some w3 ∧
      Undo.run impl w3 = some w2 := by
  obtain ⟨w2, hU1, hlen, he, hent⟩ := perform_undo_state impl hpair a w hf hwf
  obtain ⟨w3, hR, hU2⟩ := redo_undo_cancel impl hpair w2 w.nextId a hlen he hent
  exact ⟨w2, w3, hU1, hR, hU2⟩

theorem undo_redo_undo_oscillation_witness :
    ∃ w2 w3,
      Undo.run setLevelImpl (PerformAction.run setLevelImpl 7 store0) = some w2 ∧
      Redo.run setLevelImpl w2 = some w3 ∧
      Undo.run setLevelImpl w3 = some w2 :=
  undo_redo_undo_oscillation setLevelImpl (fun x s => rfl) 7 store0
    ⟨fun id h => rfl, by simp [store0, History.default]⟩ (by decide)

theorem perform_nextId (impl : ActionImpl S A) (a : A) (w : Store S A) :
    (PerformAction.run impl a w).nextId = w.nextId + 1 :=
  rfl

theorem roundtrip_aux (impl : ActionImpl S A)
    (hinv : ∀ x s, (impl.undoF (impl.applyF x s).1 (impl.applyF x s).2).2 = s)
    (acts : List A) :
    ∀ (w : Store S A), Fresh w → w.history.WF →
    ∃ w2, undoAll impl acts.length (performAll impl acts w) = some w2 ∧
      w2.res = w.res ∧
      w2.history.index = w.history.index ∧
      (∀ j, j < w.history.index →
        w2.history.items.getD j 0 = w.history.items.getD j 0) ∧
      (∀ id, id < w.nextId → id ∉ w.history.items.drop w.history.index →
        getEntry w2 id = getEntry w id) := by
  induction acts with
  | nil =>
    intro w hf hwf
    exact ⟨w, rfl, rfl, rfl, fun j hj => rfl, fun id h1 h2 => rfl⟩
  | cons a as ih =>
    intro w hf hwf
    have hf1 : Fresh (PerformAction.run impl a w) := perform_fresh impl a w hf
    have hwf1 : (PerformAction.run impl a w).history.WF := perform_wf impl a w hwf
    obtain ⟨w2, hrun, hres, hidx, hgd, hge⟩ :=
      ih (PerformAction.run impl a w) hf1 hwf1
    have hNoFut := perform_no_future impl a w hwf
    have hidx2 : w2.history.index = w.history.index + 1 := by
      rw [hidx, perform_index]
    have hgd_e : w2.history.items.getD w.history.index 0 = w.nextId := by
      rw [hgd w.history.index (by rw [perform_index]; omega)]
      exact perform_getD_new impl a w hwf
    have hge_e : getEntry w2 w.nextId =
        some { action := some (impl.applyF a w.res).1, item := true } := by
      rw [hge w.nextId (by rw [perform_nextId]; omega)
        (by rw [hNoFut]; exact List.not_mem_nil _)]
      exact perform_getEntry_new impl a w hf
    have hU := Undo.run_pops_back impl w2 w.history.index w.nextId
      { action := some (impl.applyF a w.res).1, item := true }
      (impl.applyF a w.res).1 hidx2 hgd_e hge_e rfl rfl
    rw [hres,
      show (PerformAction.run impl a w).res = (impl.applyF a w.res).2 from rfl,
      hinv a w.res] at hU
    have hpack : ∃ w4, Undo.run impl w2 = some w4 ∧ w4.res = w.res ∧
        w4.history.index = w.history.index ∧
        w4.history.items = w2.history.items ∧
        (∀ id, id ≠ w.nextId → getEntry w4 id = getEntry w2 id) := by
      refine ⟨_, hU, rfl, rfl, rfl, ?_⟩
      intro id hne
      unfold getEntry
      dsimp only
      rw [if_neg hne]
    obtain ⟨w4, hU4, hres4, hidx4, hitems4, hge4⟩ := hpack
    refine ⟨w4, ?_, hres4, hidx4, ?_, ?_⟩
    · show (undoAll impl as.length
        (performAll impl as (PerformAction.run impl a w))).bind (Undo.run impl) =
        some w4
      rw [hrun]
      exact hU4
    · intro j hj
      rw [hitems4]
      rw [hgd j (by rw [perform_index]; omega)]
      exact perform_getD_old impl a w j hj hwf
    · intro id hid hmem
      rw [hge4 id (by omega)]
      rw [hge id (by rw [perform_nextId]; omega)
        (by rw [hNoFut]; exact List.not_mem_nil _)]
      exact perform_getEntry_old impl a w id (by omega) hmem

/-- C1: for any sequence of `PerformAction` commands followed by as many
`Undo` commands, under the hypothesis that each action's `undo` exactly
inverts its most recent `apply` on the store, the store's observable state
(`res`: resources and pre-existing entities, excluding the history-entry
entities and the `History` resource itself) equals its state before the
first `PerformAction`. -/
theorem perform_undo_roundtrip (impl : ActionImpl S A)
    (hinv : ∀ x s, (impl.undoF (impl.applyF x s).1 (impl.applyF x s).2).2 = s)
    (acts : List A) (w : Store S A) (hf : Fresh w) (hwf : w.history.WF) :
    ∃ w2, undoAll impl acts.length (performAll impl acts w) = some w2 ∧
      w2.res = w.res := by
  obtain ⟨w2, hrun, hres, _, _, _⟩ := roundtrip_aux impl hinv acts w hf hwf
  exact ⟨w2, hrun, hres⟩

theorem perform_undo_roundtrip_witness :
    ∃ w2, undoAll setLevelImpl ([3, 5] : List Nat).length
        (performAll setLevelImpl [3, 5] store0) = some w2 ∧
      w2.res = store0.res :=
  perform_undo_roundtrip setLevelImpl (fun x s => rfl) [3, 5] store0
    ⟨fun id h => rfl, by simp [store0, History.default]⟩ (by decide)
